import Mathlib

/-!
Verification of the bytecode fingerprinting and proxy-resolution engine of the
copy-pasta-checker API, against its natural-language specification.

The source is TypeScript operating on Node `Buffer`s (byte arrays) and on hex
strings.  The shallow embedding represents a byte sequence as `List Nat`
(each element a byte value) and a hex string as a `List Nat` of nibble values
(each element `< 16`); `hexOfBytes`/`bytesOfHex` translate between the two the
way `Buffer.toString('hex')` / `Buffer.from(·, 'hex')` do (an odd trailing
nibble is dropped by the decoder, as in Node).  JavaScript numbers that can
become fractional (the fallback path of `stripMetadata` divides a possibly odd
hex-length difference by two, and similarity scores) are modelled as `ℚ`.
Operations that can throw a `RangeError` (`Buffer.readUInt16BE` out of
bounds) are modelled as `Option`-valued, with `Option.none` standing for the
thrown error; everything else in the normalizer and comparator is total in
the source and is embedded totally.
-/

namespace CopyPasta

/-- One byte (value `< 256`) rendered as its two hex nibbles, high first,
as `Buffer.toString('hex')` renders it. -/
def hexOfByte (b : Nat) : List Nat := [b / 16, b % 16]

/-- A byte sequence rendered as its hex-nibble sequence
(`Buffer.toString('hex')`). -/
def hexOfBytes : List Nat → List Nat
  | [] => []
  | b :: rest => hexOfByte b ++ hexOfBytes rest

/-- Hex nibbles decoded back to bytes, pairing nibbles high-first; a trailing
unpaired nibble is dropped, as `Buffer.from(hex, 'hex')` drops an incomplete
final pair in Node. -/
def bytesOfHex : List Nat → List Nat
  | hi :: lo :: rest => (hi * 16 + lo) :: bytesOfHex rest
  | _ => []

/-- `Buffer.readUInt16BE(off)`: the big-endian 16-bit value at `off`;
`Option.none` models the `RangeError` thrown when the read is out of bounds. -/
def readUInt16BE (b : List Nat) (off : Nat) : Option Nat :=
  match b[off]?, b[off + 1]? with
  | some hi, some lo => some (hi * 256 + lo)
  | _, _ => Option.none

/-- `CBOR_PREFIXES = ['a264', 'a265']` of `normalization.ts`, as nibble
sequences. -/
def CBOR_PREFIXES : List (List Nat) := [[10, 2, 6, 4], [10, 2, 6, 5]]

/-- `CBOR_SUFFIX = '0033'` of `normalization.ts`, as nibbles. -/
def CBOR_SUFFIX : List Nat := [0, 0, 3, 3]

/-- `hexStr.lastIndexOf(pattern)`: the start index of the last occurrence of
`patt` in `l`, `Option.none` when there is none (JavaScript's `-1`). -/
def lastIndexOfSeq (patt l : List Nat) : Option Nat :=
  (((List.range (l.length + 1)).filter fun i => patt.isPrefixOf (l.drop i))).getLast?

/-- One iteration of the fallback loop of `stripMetadata`
(`normalization.ts` lines 33-42): `lastIndex = hexStr.lastIndexOf(prefix); if
(lastIndex !== -1 && hexStr.endsWith(CBOR_SUFFIX)) return {stripped:
Buffer.from(hexStr.slice(0, lastIndex), 'hex'), bytesRemoved: (hexStr.length -
lastIndex) / 2}`.  The byte count is `ℚ`-valued because the JavaScript
division can be fractional when `lastIndex` is odd. -/
def fallbackTry (hexStr patt : List Nat) : Option (List Nat × ℚ) :=
  match lastIndexOfSeq patt hexStr with
  | some lastIndex =>
    if CBOR_SUFFIX.isSuffixOf hexStr then
      some (bytesOfHex (hexStr.take lastIndex),
        ((hexStr.length : ℚ) - (lastIndex : ℚ)) / 2)
    else Option.none
  | Option.none => Option.none

/-- The fallback textual scan of `stripMetadata`: try `'a264'` then `'a265'`,
and when neither fires return the input with zero bytes removed. -/
def stripFallback (bytecode : List Nat) : List Nat × ℚ :=
  let hexStr := hexOfBytes bytecode
  match fallbackTry hexStr [10, 2, 6, 4] with
  | some r => r
  | Option.none =>
    match fallbackTry hexStr [10, 2, 6, 5] with
    | some r => r
    | Option.none => (bytecode, 0)

/-- `stripMetadata` of `normalization.ts` (lines 16-45): read the final two
bytes as a big-endian length `L`; if `0 < L < 200` and `L + 2 ≤ length` and
the two bytes at `length - 2 - L` spell a known CBOR prefix, drop the trailing
`L + 2` bytes; otherwise run the textual fallback.  `Option.none` models a
thrown `RangeError` (which the guard `length ≥ 2` in fact rules out). -/
def stripMetadata (bytecode : List Nat) : Option (List Nat × ℚ) :=
  if bytecode.length < 2 then some (bytecode, 0)
  else
    match readUInt16BE bytecode (bytecode.length - 2) with
    | Option.none => Option.none
    | some cborLength =>
      if 0 < cborLength ∧ cborLength < 200 ∧ cborLength + 2 ≤ bytecode.length then
        let metadataStart := bytecode.length - 2 - cborLength
        let metadataHex := hexOfBytes ((bytecode.drop metadataStart).take 2)
        if CBOR_PREFIXES.any fun p => p.isPrefixOf metadataHex then
          some (bytecode.take metadataStart, (cborLength : ℚ) + 2)
        else some (stripFallback bytecode)
      else some (stripFallback bytecode)

/-- `maskAddresses` of `normalization.ts` (lines 51-76), as structural
recursion on the byte list: at a `PUSH20` opcode (`0x73`) whose 20 operand
bytes are fully in bounds (`i + 20 < length`, i.e. at least 20 bytes follow
the opcode) the operand is overwritten with zeros and the mask counter is
incremented; any other `PUSH1..PUSH32` opcode (`0x60..0x7f`, including a
truncated `PUSH20`) skips its `op - 0x60 + 1` operand bytes unchanged; any
other byte advances by one. -/
def maskAddresses : List Nat → List Nat × Nat
  | [] => ([], 0)
  | op :: rest =>
    if op = 0x73 ∧ 20 ≤ rest.length then
      let r := maskAddresses (rest.drop 20)
      (op :: (List.replicate 20 0 ++ r.1), r.2 + 1)
    else if 0x60 ≤ op ∧ op ≤ 0x7f then
      let n := op - 0x60 + 1
      let r := maskAddresses (rest.drop n)
      (op :: (rest.take n ++ r.1), r.2)
    else
      let r := maskAddresses rest
      (op :: r.1, r.2)
termination_by l => l.length
decreasing_by
  all_goals simp [List.length_drop]
  all_goals omega

/-- `NormalizationResult` of `types/index.ts`; `normalized` holds the bytes
whose hex rendering the source stores, and `metadata_stripped` is `ℚ`-valued
because the fallback path of `stripMetadata` can report a fractional byte
count. -/
structure NormalizationResult where
  normalized : List Nat
  original_size : Nat
  normalized_size : Nat
  metadata_stripped : ℚ
  addresses_masked : Nat
deriving DecidableEq

/-- `normalizeBytecode` of `normalization.ts` (lines 83-99): empty input (the
absent / `'0x'` cases) yields the all-zero result; otherwise strip metadata,
then mask addresses on the stripped bytes.  `Option.none` propagates the
modelled `RangeError` of `stripMetadata`. -/
def normalizeBytecode (bytes : List Nat) : Option NormalizationResult :=
  if bytes = [] then some ⟨[], 0, 0, 0, 0⟩
  else
    match stripMetadata bytes with
    | Option.none => Option.none
    | some (stripped, bytesRemoved) =>
      let r := maskAddresses stripped
      some ⟨r.1, bytes.length, r.1.length, bytesRemoved, r.2⟩

/-- `containsDelegateCall` of `normalization.ts` (lines 109-128): walk the
opcodes, skipping `PUSH1..PUSH32` operand data, and report whether a genuine
`DELEGATECALL` (`0xf4`) instruction occurs. -/
def containsDelegateCall : List Nat → Bool
  | [] => false
  | op :: rest =>
    if op = 0xf4 then true
    else if 0x60 ≤ op ∧ op ≤ 0x7f then
      containsDelegateCall (rest.drop (op - 0x60 + 1))
    else containsDelegateCall rest
termination_by l => l.length
decreasing_by
  all_goals simp [List.length_drop]
  all_goals omega

/-- The guarded `readUInt16BE(length - 2)` of `stripMetadata` is always in
bounds once the length is at least 2. -/
theorem readUInt16BE_isSome (bytecode : List Nat) (h : 2 ≤ bytecode.length) :
    (readUInt16BE bytecode (bytecode.length - 2)).isSome := by
  have hb1 : bytecode.length - 2 < bytecode.length := by omega
  have hb2 : bytecode.length - 2 + 1 < bytecode.length := by omega
  simp [readUInt16BE, List.getElem?_eq_getElem hb1, List.getElem?_eq_getElem hb2]

/-- `stripMetadata` never takes its error branch: the guarded
`readUInt16BE(length - 2)` read is always in bounds. -/
theorem stripMetadata_isSome (bytecode : List Nat) :
    (stripMetadata bytecode).isSome := by
  unfold stripMetadata
  by_cases h : bytecode.length < 2
  · simp [h]
  · have := readUInt16BE_isSome bytecode (by omega)
    rw [if_neg h]
    split
    · simp_all
    · split
      · simp only []
        split <;> simp
      · simp

/-- The chunk-collection loop of `chunkBytecode` (`similarity.ts` lines
10-12): `for (let i = 0; i <= clean.length - chunkSize; i += 2)
chunks.add(clean.slice(i, i + chunkSize))`, phrased as recursion on the
suffix `clean.drop i` (the loop guard `i + chunkSize ≤ clean.length` is
`chunkSize ≤ suffix.length`, and `i += 2` drops two nibbles); collecting into
a set makes the one- and zero-element tails add the same windows as the
loop. -/
def chunkGo (chunkSize : Nat) : List Nat → Finset (List Nat)
  | [] => if chunkSize = 0 then insert [] ∅ else ∅
  | [a] => if chunkSize ≤ 1 then insert ([a].take chunkSize) (chunkGo chunkSize []) else ∅
  | a :: b :: rest =>
    if chunkSize ≤ rest.length + 2 then
      insert ((a :: b :: rest).take chunkSize) (chunkGo chunkSize rest)
    else ∅

/-- `chunkBytecode` of `similarity.ts` (lines 6-15): the set of `chunkSize`
hex-character windows collected at a stride of 2 hex characters (one byte).
The argument is the cleaned (0x-stripped, lower-cased) hex-nibble sequence. -/
def chunkBytecode (bytecode : List Nat) (chunkSize : Nat) : Finset (List Nat) :=
  chunkGo chunkSize bytecode

/-- `jaccardSimilarity` of `similarity.ts` (lines 18-28): both sets empty
gives 100, exactly one empty gives 0, otherwise intersection over union as a
percentage. -/
def jaccardSimilarity (setA setB : Finset (List Nat)) : ℚ :=
  if setA.card = 0 ∧ setB.card = 0 then 100
  else if setA.card = 0 ∨ setB.card = 0 then 0
  else
    ((setA ∩ setB).card : ℚ) /
      ((setA.card : ℚ) + (setB.card : ℚ) - ((setA ∩ setB).card : ℚ)) * 100

/-- `ProcessedLegend` of `similarity.ts`: the legend identity fields used by
`compareToLibrary` plus the precomputed chunk set. -/
structure ProcessedLegend where
  legend_id : String
  legend_name : String
  category : String
  chunks : Finset (List Nat)

/-- `SimilarityResult` of `types/index.ts`, with the score as `ℚ`. -/
structure SimilarityResult where
  legend_id : String
  legend_name : String
  category : String
  similarity_score : ℚ

/-- `Math.round(score * 100) / 100`: round to two decimal places, halves away
from minus infinity as JavaScript's `Math.round` does. -/
def round2 (q : ℚ) : ℚ := ((q * 100 + 1 / 2).floor : ℚ) / 100

/-- Insertion step of the stable descending sort modelling
`results.sort((a, b) => b.similarity_score - a.similarity_score)`. -/
def insertDesc (x : SimilarityResult) : List SimilarityResult → List SimilarityResult
  | [] => [x]
  | y :: ys =>
    if y.similarity_score ≤ x.similarity_score then x :: y :: ys
    else y :: insertDesc x ys

/-- Stable sort by `similarity_score` descending (ties keep the library
order), modelling the JavaScript stable `Array.prototype.sort`. -/
def sortByScoreDesc (l : List SimilarityResult) : List SimilarityResult :=
  l.foldr insertDesc []

/-- `compareToLibrary` of `similarity.ts` (lines 42-53): normalize the
target, chunk its hex rendering, score every preprocessed legend, round each
score to two decimals, and sort descending.  `Option.none` propagates the
modelled `RangeError` of the normalizer. -/
def compareToLibrary (targetBytecode : List Nat) (library : List ProcessedLegend) :
    Option (List SimilarityResult) :=
  match normalizeBytecode targetBytecode with
  | Option.none => Option.none
  | some r =>
    let targetChunks := chunkBytecode (hexOfBytes r.normalized) 8
    some (sortByScoreDesc (library.map fun legend =>
      ⟨legend.legend_id, legend.legend_name, legend.category,
        round2 (jaccardSimilarity targetChunks legend.chunks)⟩))

/-- C1: for every byte sequence (the well-formed hex strings are exactly the
renderings of byte sequences, the empty one included) `normalizeBytecode` and
`compareToLibrary` return a defined result and never throw: the only
possibly-throwing primitive, the guarded `readUInt16BE`, never fires, so both
functions are total over their input domain. -/
theorem normalize_and_compare_total (bytes : List Nat) (library : List ProcessedLegend) :
    (normalizeBytecode bytes).isSome ∧ (compareToLibrary bytes library).isSome := by
  have hn : (normalizeBytecode bytes).isSome := by
    unfold normalizeBytecode
    by_cases h : bytes = []
    · simp [h]
    · have := stripMetadata_isSome bytes
      simp only [h, if_false]
      cases hs : stripMetadata bytes with
      | none => rw [hs] at this; simp at this
      | some r => simp
  refine ⟨hn, ?_⟩
  unfold compareToLibrary
  cases hr : normalizeBytecode bytes with
  | none => rw [hr] at hn; simp at hn
  | some r => simp

/-- Rendering a byte sequence as hex doubles its length. -/
theorem hexOfBytes_length : ∀ bytes : List Nat, (hexOfBytes bytes).length = 2 * bytes.length
  | [] => by simp [hexOfBytes]
  | b :: rest => by
    simp [hexOfBytes, hexOfByte, hexOfBytes_length rest]
    omega

/-- Twice the number of distinct windows is bounded by the number of loop
iterations times two: `2·|chunks| ≤ len + 2 - chunkSize` for any chunk size
of at least one byte (two hex characters). -/
theorem chunkGo_card_le (chunkSize : Nat) (hcs : 2 ≤ chunkSize) :
    ∀ clean : List Nat, 2 * (chunkGo chunkSize clean).card ≤ clean.length + 2 - chunkSize := by
  intro clean
  induction clean using chunkGo.induct chunkSize with
  | case1 h => omega
  | case2 h => rw [chunkGo, if_neg h]; simp
  | case3 a h ih => omega
  | case4 a h => rw [chunkGo, if_neg h]; simp
  | case5 a b rest h ih =>
    rw [chunkGo, if_pos h]
    have hins := Finset.card_insert_le ((a :: b :: rest).take chunkSize)
      (chunkGo chunkSize rest)
    simp only [List.length_cons]
    omega
  | case6 a b rest h => rw [chunkGo, if_neg h]; simp

/-- C5 (amended): for every byte sequence, the set of 4-byte (8 hex
character) windows at 1-byte stride has at most `len - 4 + 1` elements;
chunking a sequence shorter than the chunk size yields the empty set; and
chunking the 5-byte sequence `aabbccddee` with the 4-byte chunk size yields
exactly 2 overlapping windows (`aabbccdd` and `bbccddee`), not 7. -/
theorem chunk_window_bounds (bytes : List Nat) :
    (4 ≤ bytes.length → (chunkBytecode (hexOfBytes bytes) 8).card ≤ bytes.length - 4 + 1)
  ∧ (bytes.length < 4 → chunkBytecode (hexOfBytes bytes) 8 = ∅)
  ∧ (chunkBytecode [10, 10, 11, 11, 12, 12, 13, 13, 14, 14] 8).card = 2 := by
  have hlen := hexOfBytes_length bytes
  have hcard := chunkGo_card_le 8 (by omega) (hexOfBytes bytes)
  refine ⟨fun h => ?_, fun h => ?_, by decide⟩
  · show (chunkGo 8 (hexOfBytes bytes)).card ≤ bytes.length - 4 + 1
    omega
  · show chunkGo 8 (hexOfBytes bytes) = ∅
    have hzero : (chunkGo 8 (hexOfBytes bytes)).card = 0 := by omega
    exact Finset.card_eq_zero.mp hzero

/-- C5 counterexample: chunking the sequence `aabbccddee` with the 4-byte
chunk size does not yield 7 windows (it yields 2: the hex string has 10
characters, i.e. 5 bytes, and the stride is one byte). -/
theorem chunk_aabbccddee_not_seven :
    (chunkBytecode [10, 10, 11, 11, 12, 12, 13, 13, 14, 14] 8).card ≠ 7 := by decide

/-- The condition under which the primary (length-prefixed) check of
`stripMetadata` strips: the final two bytes read as a big-endian length `L`
with `0 < L < 200` and `L + 2 ≤ length`, and the two bytes at
`length - 2 - L` spell a known CBOR prefix. -/
def primaryTrailerValid (bytecode : List Nat) : Bool :=
  if bytecode.length < 2 then false
  else
    match readUInt16BE bytecode (bytecode.length - 2) with
    | Option.none => false
    | some cborLength =>
      decide (0 < cborLength ∧ cborLength < 200 ∧ cborLength + 2 ≤ bytecode.length) &&
        (CBOR_PREFIXES.any fun p =>
          p.isPrefixOf (hexOfBytes ((bytecode.drop (bytecode.length - 2 - cborLength)).take 2)))

/-- The condition under which the fallback textual check of `stripMetadata`
strips: the hex rendering ends with the known suffix `0033` and contains an
occurrence of a known CBOR prefix. -/
def fallbackTrailerValid (bytecode : List Nat) : Bool :=
  CBOR_SUFFIX.isSuffixOf (hexOfBytes bytecode) &&
    CBOR_PREFIXES.any fun p => (lastIndexOfSeq p (hexOfBytes bytecode)).isSome

/-- When the fallback check does not fire, `stripFallback` returns the input
unchanged with zero bytes removed. -/
theorem stripFallback_of_invalid (bytecode : List Nat)
    (h : fallbackTrailerValid bytecode = false) :
    stripFallback bytecode = (bytecode, 0) := by
  unfold fallbackTrailerValid at h
  unfold stripFallback fallbackTry
  simp only [CBOR_PREFIXES, List.any_cons, List.any_nil, Bool.and_eq_false_iff,
    Bool.or_eq_false_iff] at h
  cases hA : lastIndexOfSeq [10, 2, 6, 4] (hexOfBytes bytecode) with
  | none =>
    cases hB : lastIndexOfSeq [10, 2, 6, 5] (hexOfBytes bytecode) with
    | none => simp [hA, hB]
    | some j =>
      rcases h with h | ⟨hA', hB'⟩
      · simp [hA, hB, h]
      · rw [hB] at hB'; simp at hB'
  | some i =>
    rcases h with h | ⟨hA', hB'⟩
    · cases hB : lastIndexOfSeq [10, 2, 6, 5] (hexOfBytes bytecode) with
      | none => simp [hA, hB, h]
      | some j => simp [hA, hB, h]
    · rw [hA] at hA'; simp at hA'

/-- The final two bytes of `A ++ [hi, lo]` read as the big-endian value
`hi * 256 + lo`. -/
theorem readUInt16BE_append_last2 (A : List Nat) (hi lo : Nat) :
    readUInt16BE (A ++ [hi, lo]) ((A ++ [hi, lo]).length - 2) = some (hi * 256 + lo) := by
  have hlen : (A ++ [hi, lo]).length = A.length + 2 := by simp
  have h1 : (A ++ [hi, lo])[A.length]? = some hi := by
    rw [List.getElem?_append_right (Nat.le_refl _)]
    simp
  have h2 : (A ++ [hi, lo])[A.length + 1]? = some lo := by
    rw [List.getElem?_append_right (by omega)]
    simp
  unfold readUInt16BE
  rw [hlen]
  simp only [Nat.add_sub_cancel, h1, h2]

/-- Primary-path stripping: a well-formed trailer
`a2 6x ++ filler ++ [0, filler.length + 2]` after any payload is removed
whole, returning the payload and the removed byte count. -/
theorem stripMetadata_trailer (payload filler : List Nat) (b : Nat)
    (hb : b = 0x64 ∨ b = 0x65) (hL : filler.length + 2 < 200) :
    stripMetadata (payload ++ 0xa2 :: b :: (filler ++ [0, filler.length + 2])) =
      some (payload, (filler.length : ℚ) + 4) := by
  have hassoc : payload ++ 0xa2 :: b :: (filler ++ [0, filler.length + 2]) =
      (payload ++ 0xa2 :: b :: filler) ++ [0, filler.length + 2] := by
    simp
  rw [hassoc]
  have hlen : ((payload ++ 0xa2 :: b :: filler) ++ [0, filler.length + 2]).length =
      payload.length + filler.length + 4 := by
    simp
    omega
  unfold stripMetadata
  rw [if_neg (by rw [hlen]; omega)]
  rw [readUInt16BE_append_last2]
  simp only [Nat.zero_mul, Nat.zero_add]
  rw [if_pos (by refine ⟨by omega, by omega, ?_⟩; rw [hlen]; omega)]
  have hms : ((payload ++ 0xa2 :: b :: filler) ++ [0, filler.length + 2]).length - 2 -
      (filler.length + 2) = payload.length := by
    rw [hlen]; omega
  rw [hms]
  have hdrop : (((payload ++ 0xa2 :: b :: filler) ++ [0, filler.length + 2]).drop
      payload.length).take 2 = [0xa2, b] := by
    rw [List.append_assoc, List.drop_left]
    simp [List.take]
  have htake : ((payload ++ 0xa2 :: b :: filler) ++ [0, filler.length + 2]).take
      payload.length = payload := by
    rw [List.append_assoc, List.take_left]
  rw [hdrop, htake]
  have hpre : (CBOR_PREFIXES.any fun p => p.isPrefixOf (hexOfBytes [0xa2, b])) = true := by
    rcases hb with rfl | rfl <;> decide
  rw [if_pos hpre]
  congr 1
  push_cast
  ring_nf

/-- C6: metadata stripping.  First part: for every payload and every trailer
`knownPrefix ++ filler ++ validLength` (the final two bytes the big-endian
length `L = filler.length + 2 < 200`, with the `L` bytes before them starting
with the known two-byte prefix `a2 64` or `a2 65`), stripping returns exactly
the payload and a removed count of `L + 2 = filler.length + 4`.  Second part:
for every byte sequence on which neither the primary nor the fallback check
fires, stripping returns the input unchanged with zero bytes removed. -/
theorem stripMetadata_spec :
    (∀ (payload filler : List Nat) (b : Nat), b = 0x64 ∨ b = 0x65 →
        filler.length + 2 < 200 →
        stripMetadata (payload ++ 0xa2 :: b :: (filler ++ [0, filler.length + 2])) =
          some (payload, (filler.length : ℚ) + 4))
  ∧ (∀ bytes : List Nat, primaryTrailerValid bytes = false →
        fallbackTrailerValid bytes = false →
        stripMetadata bytes = some (bytes, 0)) := by
  constructor
  · exact stripMetadata_trailer
  · intro bytes h1 h2
    unfold stripMetadata
    by_cases hlen : bytes.length < 2
    · simp [hlen]
    · rw [if_neg hlen]
      have hsome := readUInt16BE_isSome bytes (by omega)
      split
      · simp_all
      · rename_i cborLength hr
        unfold primaryTrailerValid at h1
        rw [if_neg hlen, hr] at h1
        simp only [Bool.and_eq_false_iff, decide_eq_false_iff_not] at h1
        by_cases hg : 0 < cborLength ∧ cborLength < 200 ∧ cborLength + 2 ≤ bytes.length
        · rw [if_pos hg]
          rcases h1 with h1 | h1
          · exact absurd hg h1
          · rw [if_neg (by simp [h1])]
            rw [stripFallback_of_invalid bytes h2]
        · rw [if_neg hg]
          rw [stripFallback_of_invalid bytes h2]

/-- C6 witness: both parts of `stripMetadata_spec` at concrete inputs — the
payload `01 02` with trailer `a2 64 00 02` loses exactly the 4 trailer bytes,
and `01 02 03`, which has no valid trailer, is returned unchanged. -/
theorem stripMetadata_spec_witness :
    stripMetadata [1, 2, 0xa2, 0x64, 0, 2] = some ([1, 2], 4)
  ∧ stripMetadata [1, 2, 3] = some ([1, 2, 3], 0) := by
  constructor
  · have h := stripMetadata_spec.1 [1, 2] [] 0x64 (Or.inl rfl) (by simp)
    simpa using h
  · exact stripMetadata_spec.2 [1, 2, 3] (by decide) (by decide)

/-- The opcode walker of spec §4.1, as implemented identically by the
scanning loops of `maskAddresses`, `containsDelegateCall` and the walker
variant of the proxy heuristic: the list of positions at which the walk
visits an instruction byte.  A `PUSH1..PUSH32` opcode (`0x60..0x7f`)
advances past its `op - 0x60 + 1` operand bytes; every other byte advances
by one. -/
def opcodePositions : List Nat → List Nat
  | [] => []
  | op :: rest =>
    if 0x60 ≤ op ∧ op ≤ 0x7f then
      0 :: (opcodePositions (rest.drop (op - 0x60 + 1))).map (· + (op - 0x60 + 2))
    else 0 :: (opcodePositions rest).map (· + 1)
termination_by l => l.length
decreasing_by
  all_goals simp [List.length_drop]
  all_goals omega

/-- Position `q` lies in the operand window of a genuine, fully in-bounds
`PUSH20` instruction of `l`: some walk position `p` holds the `PUSH20` opcode
`0x73`, its 20 operand bytes `p+1 .. p+20` end before the end of `l`
(`p + 20 < l.length`, the masking guard), and `q` is one of them. -/
def inMaskedWindow (l : List Nat) (q : Nat) : Prop :=
  ∃ p ∈ opcodePositions l, l[p]? = some 0x73 ∧ p + 20 < l.length ∧ p + 1 ≤ q ∧ q ≤ p + 20

instance inMaskedWindow_decidable (l : List Nat) (q : Nat) : Decidable (inMaskedWindow l q) := by
  unfold inMaskedWindow
  infer_instance

/-- Index translation past a head byte and `n` skipped bytes:
`(op :: rest)[p + (n + 1)]? = (rest.drop n)[p]?`. -/
theorem getElem?_cons_shift (op : Nat) (rest : List Nat) (n p : Nat) :
    (op :: rest)[p + (n + 1)]? = (rest.drop n)[p]? := by
  have h : p + (n + 1) = (n + p) + 1 := by omega
  rw [h, List.getElem?_cons_succ, List.getElem?_drop]

/-- Window decomposition at a genuine in-bounds `PUSH20` head. -/
theorem inMaskedWindow_cons_push20 (rest : List Nat) (h20 : 20 ≤ rest.length) (q : Nat) :
    inMaskedWindow (0x73 :: rest) q ↔
      (1 ≤ q ∧ q ≤ 20) ∨ (21 ≤ q ∧ inMaskedWindow (rest.drop 20) (q - 21)) := by
  have hpos : opcodePositions (0x73 :: rest) =
      0 :: (opcodePositions (rest.drop 20)).map (· + 21) := by
    rw [opcodePositions, if_pos (by omega)]
  constructor
  · rintro ⟨p, hp, hop, hb, h1, h2⟩
    rw [hpos] at hp
    rcases List.mem_cons.mp hp with rfl | hp'
    · exact Or.inl ⟨h1, h2⟩
    · obtain ⟨p', hmem, rfl⟩ := List.mem_map.mp hp'
      rw [show p' + 21 = p' + (20 + 1) from by omega, getElem?_cons_shift] at hop
      simp only [List.length_cons] at hb
      refine Or.inr ⟨by omega, p', hmem, hop, ?_, by omega, by omega⟩
      simp only [List.length_drop]
      omega
  · rintro (⟨h1, h2⟩ | ⟨h21, p', hmem, hop, hb, h1, h2⟩)
    · refine ⟨0, ?_, by simp, ?_, by omega, by omega⟩
      · rw [hpos]; exact List.mem_cons_self 0 _
      · simp only [List.length_cons]; omega
    · refine ⟨p' + 21, ?_, ?_, ?_, by omega, by omega⟩
      · rw [hpos]
        exact List.mem_cons_of_mem _ (List.mem_map.mpr ⟨p', hmem, rfl⟩)
      · rw [show p' + 21 = p' + (20 + 1) from by omega, getElem?_cons_shift]
        exact hop
      · simp only [List.length_drop] at hb
        simp only [List.length_cons]
        omega

/-- Window decomposition at any other push head (including a truncated
`PUSH20`): the head opens no window, and windows shift past the operand. -/
theorem inMaskedWindow_cons_push (op : Nat) (rest : List Nat)
    (hpush : 0x60 ≤ op ∧ op ≤ 0x7f) (hnot : ¬(op = 0x73 ∧ 20 ≤ rest.length)) (q : Nat) :
    inMaskedWindow (op :: rest) q ↔
      (op - 0x60 + 2 ≤ q ∧
        inMaskedWindow (rest.drop (op - 0x60 + 1)) (q - (op - 0x60 + 2))) := by
  have hpos : opcodePositions (op :: rest) =
      0 :: (opcodePositions (rest.drop (op - 0x60 + 1))).map (· + (op - 0x60 + 2)) := by
    rw [opcodePositions, if_pos hpush]
  constructor
  · rintro ⟨p, hp, hop, hb, h1, h2⟩
    rw [hpos] at hp
    rcases List.mem_cons.mp hp with rfl | hp'
    · exfalso
      simp only [List.getElem?_cons_zero, Option.some.injEq] at hop
      simp only [List.length_cons] at hb
      exact hnot ⟨by omega, by omega⟩
    · obtain ⟨p', hmem, rfl⟩ := List.mem_map.mp hp'
      rw [show p' + (op - 0x60 + 2) = p' + ((op - 0x60 + 1) + 1) from by omega,
        getElem?_cons_shift] at hop
      simp only [List.length_cons] at hb
      refine ⟨by omega, p', hmem, hop, ?_, by omega, by omega⟩
      simp only [List.length_drop]
      omega
  · rintro ⟨hge, p', hmem, hop, hb, h1, h2⟩
    refine ⟨p' + (op - 0x60 + 2), ?_, ?_, ?_, by omega, by omega⟩
    · rw [hpos]
      exact List.mem_cons_of_mem _ (List.mem_map.mpr ⟨p', hmem, rfl⟩)
    · rw [show p' + (op - 0x60 + 2) = p' + ((op - 0x60 + 1) + 1) from by omega,
        getElem?_cons_shift]
      exact hop
    · simp only [List.length_drop] at hb
      simp only [List.length_cons]
      omega

/-- Window decomposition at a non-push head: the head opens no window and
windows shift by one. -/
theorem inMaskedWindow_cons_plain (op : Nat) (rest : List Nat)
    (hnp : ¬(0x60 ≤ op ∧ op ≤ 0x7f)) (q : Nat) :
    inMaskedWindow (op :: rest) q ↔ (1 ≤ q ∧ inMaskedWindow rest (q - 1)) := by
  have hpos : opcodePositions (op :: rest) = 0 :: (opcodePositions rest).map (· + 1) := by
    rw [opcodePositions, if_neg hnp]
  constructor
  · rintro ⟨p, hp, hop, hb, h1, h2⟩
    rw [hpos] at hp
    rcases List.mem_cons.mp hp with rfl | hp'
    · exfalso
      simp only [List.getElem?_cons_zero, Option.some.injEq] at hop
      omega
    · obtain ⟨p', hmem, rfl⟩ := List.mem_map.mp hp'
      rw [List.getElem?_cons_succ] at hop
      simp only [List.length_cons] at hb
      exact ⟨by omega, p', hmem, hop, by omega, by omega, by omega⟩
  · rintro ⟨hge, p', hmem, hop, hb, h1, h2⟩
    refine ⟨p' + 1, ?_, ?_, ?_, by omega, by omega⟩
    · rw [hpos]
      exact List.mem_cons_of_mem _ (List.mem_map.mpr ⟨p', hmem, rfl⟩)
    · rw [List.getElem?_cons_succ]
      exact hop
    · simp only [List.length_cons]
      omega

/-- Masking never changes the length of the byte sequence. -/
theorem maskAddresses_length (l : List Nat) : (maskAddresses l).1.length = l.length := by
  induction l using maskAddresses.induct with
  | case1 => simp [maskAddresses]
  | case2 op rest h ih =>
    rw [maskAddresses, if_pos h]
    simp only [List.length_cons, List.length_append, List.length_replicate, ih,
      List.length_drop]
    omega
  | case3 op rest h1 h2 n ih =>
    simp only [n] at ih ⊢
    rw [maskAddresses, if_neg h1, if_pos h2]
    simp only [List.length_cons, List.length_append, List.length_take, ih, List.length_drop]
    omega
  | case4 op rest h1 h2 ih =>
    rw [maskAddresses, if_neg h1, if_neg h2]
    simp [ih]

/-- C3: address masking, characterized per position.  The output of
`maskAddresses` has the same length as the input, and a byte is zeroed
exactly when it lies in the 20-byte operand window of a genuine, fully
in-bounds `PUSH20` instruction (a walk position holding `0x73`); every byte
outside all such windows — in particular a `0x73` byte that sits inside the
operand of another push instruction, together with the 20 bytes after it, so
long as they are in no genuine window — is returned unchanged. -/
theorem maskAddresses_characterization (l : List Nat) :
    (maskAddresses l).1.length = l.length
  ∧ ∀ q, (maskAddresses l).1[q]? = if inMaskedWindow l q then some 0 else l[q]? := by
  induction l using maskAddresses.induct with
  | case1 =>
    refine ⟨by simp [maskAddresses], fun q => ?_⟩
    rw [if_neg]
    · simp [maskAddresses]
    · rintro ⟨p, hp, _⟩
      simp [opcodePositions] at hp
  | case2 op rest h ih =>
    obtain ⟨rfl, h20⟩ := h
    have hmask : maskAddresses (0x73 :: rest) =
        (0x73 :: (List.replicate 20 0 ++ (maskAddresses (rest.drop 20)).1),
          (maskAddresses (rest.drop 20)).2 + 1) := by
      rw [maskAddresses, if_pos ⟨rfl, h20⟩]
    constructor
    · rw [hmask]
      simp only [List.length_cons, List.length_append, List.length_replicate, ih.1,
        List.length_drop]
      omega
    · intro q
      rw [hmask]
      simp only [inMaskedWindow_cons_push20 rest h20]
      rcases q with _ | j
      · rw [if_neg (by rintro (⟨ha, _⟩ | ⟨ha, _⟩) <;> omega)]
        simp
      · by_cases hj : j < 20
        · rw [if_pos (Or.inl ⟨by omega, by omega⟩)]
          rw [List.getElem?_cons_succ, List.getElem?_append, if_pos (by simpa using hj),
            List.getElem?_replicate, if_pos hj]
        · obtain ⟨k, rfl⟩ : ∃ k, j = 20 + k := ⟨j - 20, by omega⟩
          have harg : 20 + k + 1 - 21 = k := by omega
          rw [harg]
          have hL : (0x73 :: (List.replicate 20 0 ++ (maskAddresses (rest.drop 20)).1))[20 + k + 1]? =
              (maskAddresses (rest.drop 20)).1[k]? := by
            rw [List.getElem?_cons_succ,
              List.getElem?_append_right (by simp)]
            simp
          have hR : (0x73 :: rest)[20 + k + 1]? = (rest.drop 20)[k]? := by
            rw [show 20 + k + 1 = k + (20 + 1) from by omega, getElem?_cons_shift]
          by_cases hw : inMaskedWindow (rest.drop 20) k
          · have h2' := ih.2 k
            rw [if_pos hw] at h2'
            rw [hL, if_pos (Or.inr ⟨by omega, hw⟩)]
            exact h2'
          · have h2' := ih.2 k
            rw [if_neg hw] at h2'
            rw [hL, if_neg (by
              rintro (⟨ha2, hb2⟩ | ⟨ha2, hb2⟩)
              · omega
              · exact hw hb2), hR]
            exact h2'
  | case3 op rest h1 h2 n ih =>
    simp only [n] at ih ⊢
    have hmask : maskAddresses (op :: rest) =
        (op :: (rest.take (op - 0x60 + 1) ++ (maskAddresses (rest.drop (op - 0x60 + 1))).1),
          (maskAddresses (rest.drop (op - 0x60 + 1))).2) := by
      rw [maskAddresses, if_neg h1, if_pos h2]
    constructor
    · rw [hmask]
      simp only [List.length_cons, List.length_append, List.length_take, ih.1,
        List.length_drop]
      omega
    · intro q
      rw [hmask]
      simp only [inMaskedWindow_cons_push op rest h2 h1]
      rcases q with _ | j
      · rw [if_neg (by rintro ⟨ha, _⟩; omega)]
        simp
      · by_cases hj : j < op - 0x60 + 1
        · rw [if_neg (by rintro ⟨ha, _⟩; omega)]
          rw [List.getElem?_cons_succ, List.getElem?_cons_succ, List.getElem?_append]
          by_cases hjr : j < rest.length
          · rw [if_pos (by simp only [List.length_take]; omega)]
            rw [List.getElem?_take, if_pos hj]
          · rw [if_neg (by simp only [List.length_take]; omega)]
            rw [List.getElem?_eq_none (by simp only [ih.1, List.length_drop]; omega),
              List.getElem?_eq_none (by omega)]
        · obtain ⟨k, rfl⟩ : ∃ k, j = (op - 0x60 + 1) + k := ⟨j - (op - 0x60 + 1), by omega⟩
          rw [show op - 0x60 + 1 + k + 1 - (op - 0x60 + 2) = k from by omega]
          by_cases hrn : op - 0x60 + 1 ≤ rest.length
          · have hL : (op :: (rest.take (op - 0x60 + 1) ++
                (maskAddresses (rest.drop (op - 0x60 + 1))).1))[op - 0x60 + 1 + k + 1]? =
                (maskAddresses (rest.drop (op - 0x60 + 1))).1[k]? := by
              rw [List.getElem?_cons_succ,
                List.getElem?_append_right (by simp only [List.length_take]; omega)]
              congr 1
              simp only [List.length_take]
              omega
            have hR : (op :: rest)[op - 0x60 + 1 + k + 1]? =
                (rest.drop (op - 0x60 + 1))[k]? := by
              rw [show op - 0x60 + 1 + k + 1 = k + ((op - 0x60 + 1) + 1) from by omega,
                getElem?_cons_shift]
            by_cases hw : inMaskedWindow (rest.drop (op - 0x60 + 1)) k
            · have h2' := ih.2 k
              rw [if_pos hw] at h2'
              rw [hL, if_pos ⟨by omega, hw⟩]
              exact h2'
            · have h2' := ih.2 k
              rw [if_neg hw] at h2'
              rw [hL, if_neg (by rintro ⟨_, hw'⟩; exact hw hw'), hR]
              exact h2'
          · have hdrop : rest.drop (op - 0x60 + 1) = [] :=
              List.drop_eq_nil_of_le (by omega)
            have htake : rest.take (op - 0x60 + 1) = rest :=
              List.take_of_length_le (by omega)
            rw [hdrop, htake]
            rw [if_neg (by
              rintro ⟨_, p, hp, _⟩
              simp [opcodePositions] at hp)]
            simp [maskAddresses]
  | case4 op rest h1 h2 ih =>
    have hmask : maskAddresses (op :: rest) =
        (op :: (maskAddresses rest).1, (maskAddresses rest).2) := by
      rw [maskAddresses, if_neg h1, if_neg h2]
    constructor
    · rw [hmask]
      simp [ih.1]
    · intro q
      rw [hmask]
      simp only [inMaskedWindow_cons_plain op rest h2]
      rcases q with _ | j
      · rw [if_neg (by rintro ⟨ha, _⟩; omega)]
        simp
      · rw [show j + 1 - 1 = j from by omega]
        by_cases hw : inMaskedWindow rest j
        · have h2' := ih.2 j
          rw [if_pos hw] at h2'
          rw [List.getElem?_cons_succ, if_pos ⟨by omega, hw⟩]
          exact h2'
        · have h2' := ih.2 j
          rw [if_neg hw] at h2'
          rw [List.getElem?_cons_succ, if_neg (by rintro ⟨_, hw'⟩; exact hw hw'),
            List.getElem?_cons_succ]
          exact h2'

/-- Masking an already-masked sequence changes nothing: the walk of the
masked output visits the same opcode positions (operand bytes are skipped as
a unit, so zeroing them never moves the walk), and re-zeroing zeros is the
identity. -/
theorem maskAddresses_idem (l : List Nat) :
    (maskAddresses (maskAddresses l).1).1 = (maskAddresses l).1 := by
  induction l using maskAddresses.induct with
  | case1 => simp [maskAddresses]
  | case2 op rest h ih =>
    obtain ⟨rfl, h20⟩ := h
    have hdrop : (List.replicate 20 (0 : Nat) ++ (maskAddresses (rest.drop 20)).1).drop 20 =
        (maskAddresses (rest.drop 20)).1 := by
      simp
    have hstep1 : maskAddresses (0x73 :: rest) =
        (0x73 :: (List.replicate 20 0 ++ (maskAddresses (rest.drop 20)).1),
          (maskAddresses (rest.drop 20)).2 + 1) := by
      rw [maskAddresses, if_pos ⟨rfl, h20⟩]
    have hstep2 : maskAddresses
        (0x73 :: (List.replicate 20 0 ++ (maskAddresses (rest.drop 20)).1)) =
        (0x73 :: (List.replicate 20 0 ++
            (maskAddresses ((List.replicate 20 0 ++
              (maskAddresses (rest.drop 20)).1).drop 20)).1),
          (maskAddresses ((List.replicate 20 0 ++
            (maskAddresses (rest.drop 20)).1).drop 20)).2 + 1) := by
      rw [maskAddresses, if_pos ⟨rfl, by simp⟩]
    simp only [hstep1, hstep2, hdrop, ih]
  | case3 op rest h1 h2 n ih =>
    simp only [n] at ih ⊢
    have hstep1 : maskAddresses (op :: rest) =
        (op :: (rest.take (op - 0x60 + 1) ++ (maskAddresses (rest.drop (op - 0x60 + 1))).1),
          (maskAddresses (rest.drop (op - 0x60 + 1))).2) := by
      rw [maskAddresses, if_neg h1, if_pos h2]
    have hmlen : (maskAddresses (rest.drop (op - 0x60 + 1))).1.length =
        rest.length - (op - 0x60 + 1) := by
      rw [maskAddresses_length, List.length_drop]
    have hA : ¬(op = 0x73 ∧ 20 ≤ (rest.take (op - 0x60 + 1) ++
        (maskAddresses (rest.drop (op - 0x60 + 1))).1).length) := by
      rintro ⟨rfl, hlen⟩
      have hr20 : rest.length < 20 := by
        by_contra hcon
        exact h1 ⟨rfl, by omega⟩
      simp only [List.length_append, List.length_take, hmlen] at hlen
      omega
    have hstep2 : maskAddresses (op :: (rest.take (op - 0x60 + 1) ++
        (maskAddresses (rest.drop (op - 0x60 + 1))).1)) =
        (op :: ((rest.take (op - 0x60 + 1) ++
            (maskAddresses (rest.drop (op - 0x60 + 1))).1).take (op - 0x60 + 1) ++
          (maskAddresses ((rest.take (op - 0x60 + 1) ++
            (maskAddresses (rest.drop (op - 0x60 + 1))).1).drop (op - 0x60 + 1))).1),
          (maskAddresses ((rest.take (op - 0x60 + 1) ++
            (maskAddresses (rest.drop (op - 0x60 + 1))).1).drop (op - 0x60 + 1))).2) := by
      rw [maskAddresses, if_neg hA, if_pos h2]
    by_cases hrn : op - 0x60 + 1 ≤ rest.length
    · have hlt : (rest.take (op - 0x60 + 1)).length = op - 0x60 + 1 := by
        simp only [List.length_take]
        omega
      have htake2 : (rest.take (op - 0x60 + 1) ++
          (maskAddresses (rest.drop (op - 0x60 + 1))).1).take (op - 0x60 + 1) =
          rest.take (op - 0x60 + 1) := by
        rw [List.take_append_eq_append_take, hlt]
        simp [List.take_take]
      have hdrop2 : (rest.take (op - 0x60 + 1) ++
          (maskAddresses (rest.drop (op - 0x60 + 1))).1).drop (op - 0x60 + 1) =
          (maskAddresses (rest.drop (op - 0x60 + 1))).1 := by
        rw [List.drop_append_eq_append_drop, hlt]
        rw [List.drop_eq_nil_of_le (le_of_eq hlt), Nat.sub_self]
        simp
      simp only [hstep1, hstep2, htake2, hdrop2, ih]
    · push_neg at hrn
      have hdropnil : rest.drop (op - 0x60 + 1) = [] := List.drop_eq_nil_of_le (by omega)
      have htakeall : rest.take (op - 0x60 + 1) = rest := List.take_of_length_le (by omega)
      have hmasknil : maskAddresses ([] : List Nat) = ([], 0) := by rw [maskAddresses]
      simp only [hstep1, hdropnil, hmasknil, htakeall, List.append_nil]
  | case4 op rest h1 h2 ih =>
    have hA : ¬(op = 0x73 ∧ 20 ≤ (maskAddresses rest).1.length) := by
      rintro ⟨rfl, _⟩
      exact h2 ⟨by omega, by omega⟩
    have hstep1 : maskAddresses (op :: rest) =
        (op :: (maskAddresses rest).1, (maskAddresses rest).2) := by
      rw [maskAddresses, if_neg h1, if_neg h2]
    have hstep2 : maskAddresses (op :: (maskAddresses rest).1) =
        (op :: (maskAddresses (maskAddresses rest).1).1,
          (maskAddresses (maskAddresses rest).1).2) := by
      rw [maskAddresses, if_neg hA, if_neg h2]
    simp only [hstep1, hstep2, ih]

/-- C2 counterexample: normalization is not idempotent.  For the 8-byte
input `a2 64 00 02 a2 64 00 02` the first normalization strips the trailing
4-byte trailer, leaving `a2 64 00 02` — which is itself a valid metadata
trailer, so normalizing the normalized bytes strips again and yields the
empty sequence. -/
theorem normalize_not_idempotent :
    (normalizeBytecode [0xa2, 0x64, 0x00, 0x02, 0xa2, 0x64, 0x00, 0x02]).map
        NormalizationResult.normalized = some [0xa2, 0x64, 0x00, 0x02]
  ∧ (normalizeBytecode [0xa2, 0x64, 0x00, 0x02]).map
        NormalizationResult.normalized = some [] := by
  have hm1 : maskAddresses [0xa2, 0x64, 0x00, 0x02] = ([0xa2, 0x64, 0x00, 0x02], 0) := by
    simp [maskAddresses]
  have hm2 : maskAddresses ([] : List Nat) = ([], 0) := by rw [maskAddresses]
  have hs1 : stripMetadata [0xa2, 0x64, 0x00, 0x02, 0xa2, 0x64, 0x00, 0x02] =
      some ([0xa2, 0x64, 0x00, 0x02], 4) := by
    have h := stripMetadata_trailer [0xa2, 0x64, 0x00, 0x02] [] 0x64 (Or.inl rfl) (by simp)
    simpa using h
  have hs2 : stripMetadata [0xa2, 0x64, 0x00, 0x02] = some ([], 4) := by
    have h := stripMetadata_trailer [] [] 0x64 (Or.inl rfl) (by simp)
    simpa using h
  constructor
  · simp [normalizeBytecode, hs1, hm1]
  · simp [normalizeBytecode, hs2, hm2]

/-- C2 (amended): normalization is idempotent for every byte sequence whose
normalized bytes are not themselves a strippable trailer — whenever
`stripMetadata` returns the normalized bytes unchanged (zero removed),
re-normalizing them reproduces them exactly (masking is idempotent, by
`maskAddresses_idem`).  The counterexample `normalize_not_idempotent` shows
the unrestricted claim fails when the stripped payload itself ends in a
valid metadata trailer. -/
theorem normalize_idempotent_of_no_restrip (x : List Nat) (r : NormalizationResult)
    (hr : normalizeBytecode x = some r)
    (hstrip : stripMetadata r.normalized = some (r.normalized, 0)) :
    ∃ r2, normalizeBytecode r.normalized = some r2 ∧ r2.normalized = r.normalized := by
  by_cases hnil : r.normalized = []
  · refine ⟨⟨[], 0, 0, 0, 0⟩, ?_, ?_⟩
    · rw [hnil]
      simp [normalizeBytecode]
    · exact hnil.symm
  · have hmasked : (maskAddresses r.normalized).1 = r.normalized := by
      unfold normalizeBytecode at hr
      by_cases hx : x = []
      · rw [if_pos hx] at hr
        have := Option.some.inj hr
        rw [← this] at hnil
        simp at hnil
      · rw [if_neg hx] at hr
        split at hr
        · exact absurd hr (by simp)
        · rename_i stripped bytesRemoved heq
          have := Option.some.inj hr
          rw [← this]
          exact maskAddresses_idem stripped
    have hsecond : normalizeBytecode r.normalized =
        some ⟨(maskAddresses r.normalized).1, r.normalized.length,
          (maskAddresses r.normalized).1.length, 0, (maskAddresses r.normalized).2⟩ := by
      unfold normalizeBytecode
      rw [if_neg hnil, hstrip]
    exact ⟨_, hsecond, hmasked⟩

/-- C2 witness: the amended idempotence applied to the one-byte sequence
`00`, whose normalization is itself and is not stripped further. -/
theorem normalize_idempotent_witness :
    ∃ r2, normalizeBytecode ((⟨[0], 1, 1, 0, 0⟩ : NormalizationResult).normalized) = some r2 ∧
      r2.normalized = (⟨[0], 1, 1, 0, 0⟩ : NormalizationResult).normalized := by
  refine normalize_idempotent_of_no_restrip [0] ⟨[0], 1, 1, 0, 0⟩ ?_ ?_
  · have hm : maskAddresses [0] = ([0], 0) := by simp [maskAddresses]
    have hs : stripMetadata [0] = some ([0], 0) := by
      rw [stripMetadata, if_pos (by simp)]
    simp [normalizeBytecode, hs, hm]
  · rw [stripMetadata, if_pos (by simp)]

/-- `hexStr.indexOf(pattern)`: index of the first occurrence of `patt` in
`l`, `Option.none` for JavaScript's `-1` (and `code.includes(patt)` is its
`isSome`). -/
def indexOfSeq (patt : List Nat) : List Nat → Option Nat
  | [] => if patt.isPrefixOf ([] : List Nat) then some 0 else Option.none
  | a :: rest =>
    if patt.isPrefixOf (a :: rest) then some 0
    else (indexOfSeq patt rest).map (· + 1)

/-- The `proxyPrefixes` of `hasProxyCharacteristics` in `proxy.ts`
(`'363d3d37'`, `'3660'`, `'366000'`), as nibble sequences. -/
def proxyBytecodeStarts : List (List Nat) :=
  [[3, 6, 3, 13, 3, 13, 3, 7], [3, 6, 6, 0], [3, 6, 6, 0, 0, 0]]

/-- `hasProxyCharacteristics` of `proxy.ts` (lines 141-166), over the
cleaned (0x-stripped, lower-cased) hex nibbles: bytecode shorter than 200
bytes (400 hex characters) is flagged; otherwise a substring occurrence of
`'f4'` whose first index is below 200 hex characters is flagged
(`code.includes('f4')` / `code.indexOf('f4')` — a plain text search, not an
opcode walk); otherwise the code must start with a known proxy prefix. -/
def hasProxyCharacteristics (code : List Nat) : Bool :=
  if code.length < 400 then true
  else
    match indexOfSeq [15, 4] code with
    | some firstDelegateCall =>
      if firstDelegateCall < 200 then true
      else proxyBytecodeStarts.any fun p => p.isPrefixOf code
    | Option.none => proxyBytecodeStarts.any fun p => p.isPrefixOf code

/-- A run of zero bytes contains no delegate-call opcode. -/
theorem containsDelegateCall_replicate_zero (n : Nat) :
    containsDelegateCall (List.replicate n 0) = false := by
  induction n with
  | zero => simp [containsDelegateCall]
  | succ k ih =>
    rw [List.replicate_succ, containsDelegateCall]
    simp [ih]

set_option maxRecDepth 40000 in
/-- C4 (behaviour at the failing input): the bytecode
`60 80 60 40 52 60 f4` followed by 300 zero bytes carries its only `0xf4`
byte as `PUSH1` operand data — the opcode walker (`containsDelegateCall`)
correctly reports no delegate-call — yet the proxy heuristic pre-filter
`hasProxyCharacteristics` still reports it, because it text-searches the hex
string for `'f4'` instead of reusing the walker's skip rule.  The repo's own
test (`tests/proxy.test.ts`, "should not match f4 inside PUSH1 operand
data") expects `false` here. -/
theorem proxy_prefilter_flags_operand_f4 :
    hasProxyCharacteristics
      (hexOfBytes ([0x60, 0x80, 0x60, 0x40, 0x52, 0x60, 0xf4] ++ List.replicate 300 0)) = true
  ∧ containsDelegateCall
      ([0x60, 0x80, 0x60, 0x40, 0x52, 0x60, 0xf4] ++ List.replicate 300 0) = false := by
  constructor
  · decide
  · show containsDelegateCall
      (0x60 :: 0x80 :: 0x60 :: 0x40 :: 0x52 :: 0x60 :: 0xf4 :: List.replicate 300 0) = false
    rw [containsDelegateCall]
    simp only [show ¬((0x60 : Nat) = 0xf4) from by omega, if_false,
      if_pos (show (0x60 : Nat) ≥ 0x60 ∧ (0x60 : Nat) ≤ 0x7f from by omega)]
    norm_num [List.drop]
    rw [containsDelegateCall]
    norm_num [List.drop]
    rw [containsDelegateCall]
    norm_num [List.drop]
    rw [containsDelegateCall]
    norm_num [List.drop]
    exact containsDelegateCall_replicate_zero 300

/-- `proxy_type` values of `ProxyDetectionResult` in `types/index.ts`. -/
inductive ProxyType where
  | eip1167 : ProxyType
  | eip1967 : ProxyType
  | noProxy : ProxyType
deriving DecidableEq

/-- `ProxyDetectionResult` of `types/index.ts`. -/
structure ProxyDetectionResult where
  is_proxy : Bool
  proxy_type : ProxyType
  implementation_address : Option String
deriving DecidableEq

/-- The record returned by `resolveImplementation` in `proxy.ts`. -/
structure ResolutionResult where
  bytecode : String
  is_proxy : Bool
  proxy_type : ProxyType
  implementation_address : Option String
  resolution_depth : Nat
deriving DecidableEq

/-- The `while (depth < maxDepth)` loop of `resolveImplementation`
(`proxy.ts` lines 240-288), with the two external collaborators abstracted:
`detect` is `detectProxy` (total — its storage read catches its own errors
and returns null on failure) and `fetch` is `fetchBytecode`
(`Option.none` models both a transport failure caught as null and a no-code
answer).  The fuel argument is `maxDepth - depth`; the loop breaks when the
detection reports no proxy or a falsy implementation address, counts the hop
(`depth++`), and then breaks without advancing when the implementation fetch
yields nothing or `'0x'`. -/
def resolveGo (detect : String → String → ProxyDetectionResult)
    (fetch : String → Option String) :
    Nat → String → String → ProxyDetectionResult → Nat → ResolutionResult
  | 0, _, bc, last, depth =>
    ⟨bc, last.is_proxy, last.proxy_type, last.implementation_address, depth⟩
  | fuel + 1, addr, bc, last, depth =>
    let detection := detect addr bc
    match detection.is_proxy, detection.implementation_address with
    | true, some implAddr =>
      if implAddr = "" then
        ⟨bc, last.is_proxy, last.proxy_type, last.implementation_address, depth⟩
      else
        match fetch implAddr with
        | Option.none =>
          ⟨bc, detection.is_proxy, detection.proxy_type,
            detection.implementation_address, depth + 1⟩
        | some implBytecode =>
          if implBytecode = "" ∨ implBytecode = "0x" then
            ⟨bc, detection.is_proxy, detection.proxy_type,
              detection.implementation_address, depth + 1⟩
          else resolveGo detect fetch fuel implAddr implBytecode detection (depth + 1)
    | _, _ =>
      ⟨bc, last.is_proxy, last.proxy_type, last.implementation_address, depth⟩

/-- `resolveImplementation` of `proxy.ts` (lines 240-288): run the loop from
the starting address and bytecode with no proxy seen yet and zero depth. -/
def resolveImplementation (detect : String → String → ProxyDetectionResult)
    (fetch : String → Option String) (address bytecode : String)
    (maxDepth : Nat) : ResolutionResult :=
  resolveGo detect fetch maxDepth address bytecode
    ⟨false, ProxyType.noProxy, Option.none⟩ 0

/-- The loop's depth counter grows by at most its fuel. -/
theorem resolveGo_depth_le (detect : String → String → ProxyDetectionResult)
    (fetch : String → Option String) :
    ∀ (fuel : Nat) (addr bc : String) (last : ProxyDetectionResult) (depth : Nat),
      (resolveGo detect fetch fuel addr bc last depth).resolution_depth ≤ depth + fuel := by
  intro fuel
  induction fuel with
  | zero => intro addr bc last depth; simp [resolveGo]
  | succ k ih =>
    intro addr bc last depth
    rw [resolveGo]
    split
    · split_ifs with h1
      · simp
      · split
        · simp
        · split_ifs with h2
          · simp
          · exact le_trans (ih _ _ _ _) (by omega)
    · simp

/-- A synthetic two-address cycle: each address is detected as a proxy whose
implementation is the other, and each fetch succeeds. -/
def cycleDetect : String → String → ProxyDetectionResult := fun addr _ =>
  if addr = "0xA" then ⟨true, ProxyType.eip1167, some "0xB"⟩
  else ⟨true, ProxyType.eip1167, some "0xA"⟩

/-- Bytecode answers for the synthetic cycle. -/
def cycleFetch : String → Option String := fun addr =>
  if addr = "0xA" then some "0xaaaa" else some "0xbbbb"

/-- C7: for every detector and fetcher — cyclic chains included — the
resolver terminates (it is a total function of its fuel) and its reported
`resolution_depth` never exceeds `maxDepth`; and on the synthetic two-address
cycle A ↔ B resolution stops after exactly `maxDepth = 5` hops. -/
theorem resolveImplementation_bounded :
    (∀ (detect : String → String → ProxyDetectionResult)
        (fetch : String → Option String) (address bytecode : String) (maxDepth : Nat),
        (resolveImplementation detect fetch address bytecode maxDepth).resolution_depth ≤
          maxDepth)
  ∧ (resolveImplementation cycleDetect cycleFetch "0xA" "0xaaaa" 5).resolution_depth = 5 := by
  constructor
  · intro detect fetch address bytecode maxDepth
    have h := resolveGo_depth_le detect fetch maxDepth address bytecode
      ⟨false, ProxyType.noProxy, Option.none⟩ 0
    simpa [resolveImplementation] using h
  · decide

/-- C8: a transport-level failure mid-chain is non-fatal, in both forms the
source gives it, at any loop state (any remaining fuel, current address and
bytecode, last successful detection, completed hop count).  First part — the
implementation fetch fails: the detection at the current hop succeeds with a
usable address but fetching its bytecode yields nothing (`fetchBytecode`
catches transport errors and returns null, the same break the `try/catch`
around the fetch takes in the other variant of the loop); the resolver
returns the most recently obtained bytecode, that last successful detection,
and the hop count with this final detection counted.  Second part — the
storage read behind the detection fails: `detectEIP1967` catches the error
and returns null, so `detectProxy` reports no proxy (and the variant with a
`try/catch` around `detectProxy` breaks out of the loop with the same
state); the resolver returns the bytecode obtained so far, the last
successful detection, and the hops actually completed, all unchanged.  In
both parts the model is a total function, so nothing is raised past
analysis. -/
theorem resolve_mid_chain_failure :
    (∀ (detect : String → String → ProxyDetectionResult) (fetch : String → Option String)
        (fuel : Nat) (addr bc : String) (last : ProxyDetectionResult) (depth : Nat)
        (a : String), (detect addr bc).is_proxy = true →
        (detect addr bc).implementation_address = some a → a ≠ "" →
        fetch a = Option.none →
        resolveGo detect fetch (fuel + 1) addr bc last depth =
          ⟨bc, true, (detect addr bc).proxy_type, some a, depth + 1⟩)
  ∧ (∀ (detect : String → String → ProxyDetectionResult) (fetch : String → Option String)
        (fuel : Nat) (addr bc : String) (last : ProxyDetectionResult) (depth : Nat),
        (detect addr bc).is_proxy = false →
        resolveGo detect fetch (fuel + 1) addr bc last depth =
          ⟨bc, last.is_proxy, last.proxy_type, last.implementation_address, depth⟩) := by
  constructor
  · intro detect fetch fuel addr bc last depth a hproxy haddr hne hfail
    rw [resolveGo]
    simp only [hproxy, haddr]
    rw [if_neg hne, hfail]
  · intro detect fetch fuel addr bc last depth hnoproxy
    rw [resolveGo]
    simp only [hnoproxy]

/-- C8 witness: both failure forms at concrete inputs.  A chain whose first
implementation fetch fails at the transport level returns the starting
bytecode, the successful detection of `0xB`, and one counted hop; a
mid-chain state (two hops completed, last detection an `eip1167` proxy at
`0xB`) whose storage-slot read fails — surfacing as a no-proxy detection —
returns that bytecode, that detection, and the two completed hops. -/
theorem resolve_mid_chain_failure_witness :
    resolveGo (fun _ _ => ⟨true, ProxyType.eip1967, some "0xB"⟩) (fun _ => Option.none)
      3 "0xA" "0xaa" ⟨false, ProxyType.noProxy, Option.none⟩ 0 =
      ⟨"0xaa", true, ProxyType.eip1967, some "0xB", 1⟩
  ∧ resolveGo (fun _ _ => ⟨false, ProxyType.noProxy, Option.none⟩) (fun _ => some "0xcc")
      3 "0xB" "0xbb" ⟨true, ProxyType.eip1167, some "0xB"⟩ 2 =
      ⟨"0xbb", true, ProxyType.eip1167, some "0xB", 2⟩ := by
  constructor
  · exact resolve_mid_chain_failure.1 (fun _ _ => ⟨true, ProxyType.eip1967, some "0xB"⟩)
      (fun _ => Option.none) 2 "0xA" "0xaa" ⟨false, ProxyType.noProxy, Option.none⟩ 0 "0xB"
      rfl rfl (by decide) rfl
  · exact resolve_mid_chain_failure.2 (fun _ _ => ⟨false, ProxyType.noProxy, Option.none⟩)
      (fun _ => some "0xcc") 2 "0xB" "0xbb" ⟨true, ProxyType.eip1167, some "0xB"⟩ 2 rfl

/-- `CacheEntry` of `cache.ts`: stored result, creation timestamp
(`Date.now()` milliseconds, as `ℤ`), and hit counter. -/
structure CacheEntry (α : Type) where
  result : α
  createdAt : Int
  hitCount : Nat
deriving DecidableEq

/-- `AnalysisCache` of `cache.ts` (lines 10-75).  The JavaScript `Map` is an
insertion-ordered map; it is modelled as an association list on the
generated keys.  `generateKey` itself is keccak256 of the 0x-prefixed
normalized bytecode — an external cryptographic primitive, injective on
distinct inputs barring hash collisions — so the model works directly with
generated keys, and "distinct normalized bytecodes" below means distinct
keys. -/
structure AnalysisCache (α : Type) where
  cache : List (String × CacheEntry α)
  enabled : Bool
  maxEntries : Nat
deriving DecidableEq

/-- `Map.prototype.get` on the association list. -/
def mapFind {α : Type} (k : String) : List (String × CacheEntry α) → Option (CacheEntry α)
  | [] => Option.none
  | kv :: rest => if kv.1 = k then some kv.2 else mapFind k rest

/-- `Map.prototype.set`: replace in place when the key exists (keeping its
insertion position), otherwise append. -/
def mapSet {α : Type} (k : String) (v : CacheEntry α) :
    List (String × CacheEntry α) → List (String × CacheEntry α)
  | [] => [(k, v)]
  | kv :: rest => if kv.1 = k then (k, v) :: rest else kv :: mapSet k v rest

/-- `Map.prototype.delete`: remove the entry with the key (the first match;
keys are unique in a `Map`). -/
def mapDelete {α : Type} (k : String) :
    List (String × CacheEntry α) → List (String × CacheEntry α)
  | [] => []
  | kv :: rest => if kv.1 = k then rest else kv :: mapDelete k rest

/-- The eviction score of `AnalysisCache.evict` (`cache.ts` line 56):
`entry.hitCount * 1_000_000 - (Date.now() - entry.createdAt)`. -/
def evictScore {α : Type} (now : Int) (e : CacheEntry α) : Int :=
  (e.hitCount : Int) * 1000000 - (now - e.createdAt)

/-- The scan loop of `evict`: fold over the entries in insertion order,
keeping the key with the strictly lowest score seen so far;
`Option.none` stands for the initial `worstScore = Infinity` /
`worstKey = null` (the first entry always beats `Infinity`). -/
def worstAux {α : Type} (now : Int) :
    List (String × CacheEntry α) → Option (String × Int) → Option (String × Int)
  | [], acc => acc
  | kv :: rest, Option.none => worstAux now rest (some (kv.1, evictScore now kv.2))
  | kv :: rest, some (k0, s0) =>
    if evictScore now kv.2 < s0 then worstAux now rest (some (kv.1, evictScore now kv.2))
    else worstAux now rest (some (k0, s0))

/-- The key `evict` deletes: the one holding the lowest score, or nothing on
an empty cache (`if (worstKey) this.cache.delete(worstKey)`). -/
def worstKey {α : Type} (now : Int) (l : List (String × CacheEntry α)) : Option String :=
  (worstAux now l Option.none).map Prod.fst

/-- `AnalysisCache.evict` (`cache.ts` lines 51-64). -/
def AnalysisCache.evict {α : Type} (c : AnalysisCache α) (now : Int) : AnalysisCache α :=
  match worstKey now c.cache with
  | some k => { c with cache := mapDelete k c.cache }
  | Option.none => c

/-- `AnalysisCache.get` (`cache.ts` lines 27-35): when disabled always
return null; on a hit increment the entry's hit counter in place.  The
method is embedded as a state transformer returning the possibly-updated
cache. -/
def AnalysisCache.get {α : Type} (c : AnalysisCache α) (key : String) :
    Option α × AnalysisCache α :=
  if c.enabled = false then (Option.none, c)
  else
    match mapFind key c.cache with
    | some e =>
      (some e.result, { c with cache := mapSet key { e with hitCount := e.hitCount + 1 } c.cache })
    | Option.none => (Option.none, c)

/-- `AnalysisCache.set` (`cache.ts` lines 37-45): a no-op when disabled;
evict one entry when at capacity; then insert with hit counter 0 and the
current timestamp. -/
def AnalysisCache.set {α : Type} (c : AnalysisCache α) (key : String) (result : α)
    (now : Int) : AnalysisCache α :=
  if c.enabled = false then c
  else
    let c1 := if c.maxEntries ≤ c.cache.length then c.evict now else c
    { c1 with cache := mapSet key ⟨result, now, 0⟩ c1.cache }

/-- `AnalysisCache.has` (`cache.ts` lines 47-49): a bare `Map.has` on the
generated key — it consults neither `enabled` nor the hit counters.
Embedded as a state transformer like the other methods, so that leaving the
state untouched is a provable statement. -/
def AnalysisCache.has {α : Type} (c : AnalysisCache α) (key : String) :
    Bool × AnalysisCache α :=
  ((mapFind key c.cache).isSome, c)

/-- `AnalysisCache.setEnabled` (`cache.ts` line 72). -/
def AnalysisCache.setEnabled {α : Type} (c : AnalysisCache α) (b : Bool) : AnalysisCache α :=
  { c with enabled := b }

/-- A fresh cache (`new AnalysisCache(maxEntries)`). -/
def AnalysisCache.empty (α : Type) (maxEntries : Nat) : AnalysisCache α :=
  ⟨[], true, maxEntries⟩

/-- A sequence of `set` calls, each with its own timestamp. -/
def setAll {α : Type} (c : AnalysisCache α) (items : List (String × Int)) (r : α) :
    AnalysisCache α :=
  items.foldl (fun acc it => acc.set it.1 r it.2) c

/-- The eviction scan's accumulator invariant: its answer scores no more
than every scanned entry, and comes from the accumulator or a scanned
entry. -/
theorem worstAux_spec {α : Type} (now : Int) :
    ∀ (l : List (String × CacheEntry α)) (acc : Option (String × Int)) (k : String) (s : Int),
      worstAux now l acc = some (k, s) →
      (∀ kv ∈ l, s ≤ evictScore now kv.2) ∧
      (acc = some (k, s) ∨ ∃ kv ∈ l, kv.1 = k ∧ evictScore now kv.2 = s) ∧
      (∀ k0 s0, acc = some (k0, s0) → s ≤ s0) := by
  intro l
  induction l with
  | nil =>
    intro acc k s h
    rw [worstAux] at h
    refine ⟨by simp, Or.inl h, ?_⟩
    intro k0 s0 h0
    rw [h0] at h
    simp at h
    omega
  | cons kv rest ih =>
    intro acc k s h
    rcases acc with _ | ⟨k0, s0⟩
    · rw [worstAux] at h
      obtain ⟨h1, h2, h3⟩ := ih (some (kv.1, evictScore now kv.2)) k s h
      refine ⟨?_, ?_, ?_⟩
      · intro kv' hkv'
        rcases List.mem_cons.mp hkv' with rfl | hm
        · exact h3 _ _ rfl
        · exact h1 kv' hm
      · rcases h2 with heq | ⟨kv', hm, hk, hs⟩
        · simp at heq
          exact Or.inr ⟨kv, List.mem_cons_self kv rest, heq.1, heq.2⟩
        · exact Or.inr ⟨kv', List.mem_cons_of_mem _ hm, hk, hs⟩
      · intro k1 s1 h01
        exact absurd h01 (by simp)
    · rw [worstAux] at h
      by_cases hlt : evictScore now kv.2 < s0
      · rw [if_pos hlt] at h
        obtain ⟨h1, h2, h3⟩ := ih (some (kv.1, evictScore now kv.2)) k s h
        refine ⟨?_, ?_, ?_⟩
        · intro kv' hkv'
          rcases List.mem_cons.mp hkv' with rfl | hm
          · exact h3 _ _ rfl
          · exact h1 kv' hm
        · rcases h2 with heq | ⟨kv', hm, hk, hs⟩
          · simp at heq
            exact Or.inr ⟨kv, List.mem_cons_self kv rest, heq.1, heq.2⟩
          · exact Or.inr ⟨kv', List.mem_cons_of_mem _ hm, hk, hs⟩
        · intro k1 s1 h01
          simp at h01
          have hs' := h3 kv.1 (evictScore now kv.2) rfl
          omega
      · rw [if_neg hlt] at h
        obtain ⟨h1, h2, h3⟩ := ih (some (k0, s0)) k s h
        refine ⟨?_, ?_, ?_⟩
        · intro kv' hkv'
          rcases List.mem_cons.mp hkv' with rfl | hm
          · have := h3 k0 s0 rfl
            omega
          · exact h1 kv' hm
        · rcases h2 with heq | ⟨kv', hm, hk, hs⟩
          · exact Or.inl heq
          · exact Or.inr ⟨kv', List.mem_cons_of_mem _ hm, hk, hs⟩
        · intro k1 s1 h01
          simp at h01
          have := h3 k0 s0 rfl
          omega

/-- A non-empty accumulator survives the scan. -/
theorem worstAux_isSome {α : Type} (now : Int) :
    ∀ (l : List (String × CacheEntry α)) (acc : Option (String × Int)),
      acc.isSome → (worstAux now l acc).isSome := by
  intro l
  induction l with
  | nil =>
    intro acc h
    rwa [worstAux]
  | cons kv rest ih =>
    intro acc h
    rcases acc with _ | ⟨k0, s0⟩
    · simp at h
    · rw [worstAux]
      split_ifs <;> exact ih _ (by simp)

/-- A non-empty cache always yields an eviction key. -/
theorem worstKey_isSome {α : Type} (now : Int) (kv : String × CacheEntry α)
    (rest : List (String × CacheEntry α)) :
    (worstKey now (kv :: rest)).isSome := by
  unfold worstKey
  rw [worstAux]
  have h := worstAux_isSome now rest (some (kv.1, evictScore now kv.2)) (by simp)
  obtain ⟨x, hx⟩ := Option.isSome_iff_exists.mp h
  rw [hx]
  simp

/-- The evicted key belongs to the cache and holds a minimal eviction
score. -/
theorem worstKey_min {α : Type} (now : Int) (l : List (String × CacheEntry α)) (k : String)
    (h : worstKey now l = some k) :
    ∃ e, (k, e) ∈ l ∧ ∀ kv ∈ l, evictScore now e ≤ evictScore now kv.2 := by
  unfold worstKey at h
  cases hw : worstAux now l Option.none with
  | none =>
    rw [hw] at h
    simp at h
  | some p =>
    obtain ⟨k', s⟩ := p
    rw [hw] at h
    simp at h
    subst h
    obtain ⟨h1, h2, h3⟩ := worstAux_spec now l Option.none k' s hw
    rcases h2 with heq | ⟨kv, hm, hk, hs⟩
    · exact absurd heq (by simp)
    · refine ⟨kv.2, ?_, ?_⟩
      · have hp : (kv.1, kv.2) = kv := rfl
        rw [hk] at hp
        rw [hp]
        exact hm
      · intro kv' h'
        rw [hs]
        exact h1 kv' h'

/-- Inserting a fresh key appends one entry. -/
theorem mapSet_length_fresh {α : Type} (k : String) (v : CacheEntry α) :
    ∀ l : List (String × CacheEntry α), k ∉ l.map Prod.fst →
      (mapSet k v l).length = l.length + 1 := by
  intro l
  induction l with
  | nil => intro _; simp [mapSet]
  | cons kv rest ih =>
    intro h
    simp only [List.map_cons, List.mem_cons] at h
    push_neg at h
    rw [mapSet, if_neg (fun he => h.1 he.symm)]
    simp only [List.length_cons, ih h.2]

/-- Deleting a present key removes exactly one entry. -/
theorem mapDelete_length_mem {α : Type} (k : String) :
    ∀ l : List (String × CacheEntry α), k ∈ l.map Prod.fst →
      (mapDelete k l).length + 1 = l.length := by
  intro l
  induction l with
  | nil => intro h; simp at h
  | cons kv rest ih =>
    intro h
    by_cases he : kv.1 = k
    · rw [mapDelete, if_pos he]
      simp
    · rw [mapDelete, if_neg he]
      simp only [List.map_cons, List.mem_cons] at h
      rcases h with h | h
      · exact absurd h.symm he
      · have := ih h
        simp only [List.length_cons]
        omega

/-- `mapSet` introduces at most the new key. -/
theorem mapSet_keys {α : Type} (k : String) (v : CacheEntry α) :
    ∀ l : List (String × CacheEntry α),
      (mapSet k v l).map Prod.fst ⊆ k :: l.map Prod.fst := by
  intro l
  induction l with
  | nil => simp [mapSet]
  | cons kv rest ih =>
    by_cases he : kv.1 = k
    · rw [mapSet, if_pos he]
      intro x hx
      simp only [List.map_cons, List.mem_cons] at hx ⊢
      rcases hx with rfl | hx
      · exact Or.inl rfl
      · exact Or.inr (Or.inr hx)
    · rw [mapSet, if_neg he]
      intro x hx
      simp only [List.map_cons, List.mem_cons] at hx ⊢
      rcases hx with rfl | hx
      · exact Or.inr (Or.inl rfl)
      · rcases List.mem_cons.mp (ih hx) with rfl | hx'
        · exact Or.inl rfl
        · exact Or.inr (Or.inr hx')

/-- `mapDelete` introduces no key. -/
theorem mapDelete_keys {α : Type} (k : String) :
    ∀ l : List (String × CacheEntry α),
      (mapDelete k l).map Prod.fst ⊆ l.map Prod.fst := by
  intro l
  induction l with
  | nil => simp [mapDelete]
  | cons kv rest ih =>
    by_cases he : kv.1 = k
    · rw [mapDelete, if_pos he]
      intro x hx
      exact List.mem_cons_of_mem _ hx
    · rw [mapDelete, if_neg he]
      intro x hx
      simp only [List.map_cons, List.mem_cons] at hx ⊢
      rcases hx with rfl | hx
      · exact Or.inl rfl
      · exact Or.inr (ih hx)

/-- Evicting from a non-empty cache removes exactly one entry. -/
theorem evict_length {α : Type} (c : AnalysisCache α) (now : Int) (hne : c.cache ≠ []) :
    (c.evict now).cache.length + 1 = c.cache.length := by
  unfold AnalysisCache.evict
  split
  · rename_i k hw
    obtain ⟨e, hmem, _⟩ := worstKey_min now c.cache k hw
    have hkmem : k ∈ c.cache.map Prod.fst := List.mem_map.mpr ⟨(k, e), hmem, rfl⟩
    simpa using mapDelete_length_mem k c.cache hkmem
  · rename_i hw
    exfalso
    cases hc : c.cache with
    | nil => exact hne hc
    | cons kv rest =>
      have hs := worstKey_isSome now kv rest
      rw [← hc, hw] at hs
      simp at hs

/-- Eviction introduces no key. -/
theorem evict_keys {α : Type} (c : AnalysisCache α) (now : Int) :
    (c.evict now).cache.map Prod.fst ⊆ c.cache.map Prod.fst := by
  unfold AnalysisCache.evict
  split
  · rename_i k _
    exact mapDelete_keys k c.cache
  · exact fun x hx => hx

/-- Eviction and the capacity check change neither `enabled` nor
`maxEntries`; neither does `set`. -/
theorem set_fields {α : Type} (c : AnalysisCache α) (key : String) (r : α) (now : Int) :
    (c.set key r now).enabled = c.enabled ∧ (c.set key r now).maxEntries = c.maxEntries := by
  unfold AnalysisCache.set AnalysisCache.evict
  split_ifs <;> try exact ⟨rfl, rfl⟩
  split <;> exact ⟨rfl, rfl⟩

/-- `set` introduces at most the inserted key. -/
theorem set_keys {α : Type} (c : AnalysisCache α) (key : String) (r : α) (now : Int) :
    (c.set key r now).cache.map Prod.fst ⊆ key :: c.cache.map Prod.fst := by
  unfold AnalysisCache.set
  split_ifs with h1 h2
  · exact fun x hx => List.mem_cons_of_mem _ hx
  · intro x hx
    rcases List.mem_cons.mp (mapSet_keys key ⟨r, now, 0⟩ (c.evict now).cache hx) with rfl | hx'
    · exact List.mem_cons_self _ _
    · exact List.mem_cons_of_mem _ (evict_keys c now hx')
  · intro x hx
    rcases List.mem_cons.mp (mapSet_keys key ⟨r, now, 0⟩ c.cache hx) with rfl | hx'
    · exact List.mem_cons_self _ _
    · exact List.mem_cons_of_mem _ hx'

/-- Inserting a fresh key into an enabled cache within capacity: the entry
count grows by one below capacity and stays at capacity otherwise. -/
theorem set_length_fresh {α : Type} (c : AnalysisCache α) (key : String) (r : α) (now : Int)
    (hen : c.enabled = true) (hfresh : key ∉ c.cache.map Prod.fst)
    (hC : 1 ≤ c.maxEntries) (hle : c.cache.length ≤ c.maxEntries) :
    (c.set key r now).cache.length = min (c.cache.length + 1) c.maxEntries := by
  unfold AnalysisCache.set
  rw [if_neg (by simp [hen])]
  by_cases hcap : c.maxEntries ≤ c.cache.length
  · rw [if_pos hcap]
    have hlen : c.cache.length = c.maxEntries := le_antisymm hle hcap
    have hne : c.cache ≠ [] := by
      intro h0
      rw [h0] at hlen
      simp at hlen
      omega
    have hev := evict_length c now hne
    have hfresh2 : key ∉ (c.evict now).cache.map Prod.fst :=
      fun hx => hfresh (evict_keys c now hx)
    simp only []
    rw [mapSet_length_fresh key _ _ hfresh2]
    omega
  · rw [if_neg hcap]
    simp only []
    rw [mapSet_length_fresh key _ _ hfresh]
    omega

/-- Inserting a list of fresh, pairwise-distinct keys: the entry count grows
one per insertion until it reaches capacity and stays there. -/
theorem setAll_length {α : Type} (r : α) (C : Nat) (hC : 1 ≤ C) :
    ∀ (ks : List String) (ts : List Int) (c : AnalysisCache α),
      c.enabled = true → c.maxEntries = C → c.cache.length ≤ C →
      ks.Nodup → (∀ x ∈ ks, x ∉ c.cache.map Prod.fst) → ts.length = ks.length →
      (setAll c (ks.zip ts) r).cache.length = min (c.cache.length + ks.length) C := by
  intro ks
  induction ks with
  | nil =>
    intro ts c hen hme hlen hnd hfresh hts
    have hz : ([] : List String).zip ts = [] := rfl
    rw [hz]
    have hnilfold : setAll c [] r = c := rfl
    rw [hnilfold]
    simp only [List.length_nil, Nat.add_zero]
    omega
  | cons k ks' ih =>
    intro ts c hen hme hlen hnd hfresh hts
    cases ts with
    | nil => simp at hts
    | cons t ts' =>
      have hstep : setAll c ((k :: ks').zip (t :: ts')) r =
          setAll (c.set k r t) (ks'.zip ts') r := rfl
      rw [hstep]
      have hfields := set_fields c k r t
      have hfr : k ∉ c.cache.map Prod.fst := hfresh k (List.mem_cons_self _ _)
      have hlen1 := set_length_fresh c k r t hen hfr (by omega) (by omega)
      rw [hme] at hlen1
      have hnd' := List.nodup_cons.mp hnd
      have hfresh' : ∀ x ∈ ks', x ∉ (c.set k r t).cache.map Prod.fst := by
        intro x hx hmem
        rcases List.mem_cons.mp (set_keys c k r t hmem) with rfl | hmem'
        · exact hnd'.1 hx
        · exact hfresh x (List.mem_cons_of_mem _ hx) hmem'
      have hts' : ts'.length = ks'.length := by simpa using hts
      rw [ih ts' (c.set k r t) (by rw [hfields.1]; exact hen)
        (by rw [hfields.2]; exact hme) (by rw [hlen1]; omega) hnd'.2 hfresh' hts']
      rw [hlen1]
      simp only [List.length_cons]
      omega

/-- C9: capacity and eviction policy.  First part: starting from a fresh
cache of capacity `C ≥ 1`, `C + 1` insertions of pairwise-distinct keys
(each with an arbitrary timestamp) leave exactly `C` entries — the extra
insertion evicts one entry first.  Second part: whenever `evict` selects a
key, that key's entry holds a minimal score
`hitCount * 1000000 - (now - createdAt)` among all entries; hence an entry
whose score exceeds some other entry's (for example, many hits versus zero
hits at similar age) is never the one evicted, and among zero-hit entries a
strictly oldest one (most negative score) is the unique minimum and is
evicted first. -/
theorem cache_capacity_and_eviction :
    (∀ (α : Type) (C : Nat) (ks : List String) (ts : List Int) (r : α),
        1 ≤ C → ks.Nodup → ts.length = ks.length → ks.length = C + 1 →
        (setAll (AnalysisCache.empty α C) (ks.zip ts) r).cache.length = C)
  ∧ (∀ (α : Type) (now : Int) (l : List (String × CacheEntry α)) (k : String),
        worstKey now l = some k →
        ∃ e, (k, e) ∈ l ∧ ∀ kv ∈ l, evictScore now e ≤ evictScore now kv.2) := by
  constructor
  · intro α C ks ts r hC hnd hts hlen
    have h := setAll_length r C hC ks ts (AnalysisCache.empty α C) rfl rfl
      (by simp [AnalysisCache.empty]) hnd (by simp [AnalysisCache.empty]) hts
    rw [h]
    simp only [AnalysisCache.empty, List.length_nil, Nat.zero_add]
    omega
  · intro α now l k h
    exact worstKey_min now l k h

/-- C9 witness: a capacity-1 cache holds exactly 1 entry after 2 distinct
insertions, and on a concrete two-entry cache (one zero-hit entry, one
5-hit entry, same age) eviction selects the zero-hit entry, whose score is
minimal. -/
theorem cache_capacity_and_eviction_witness :
    (setAll (AnalysisCache.empty Nat 1) (["a", "b"].zip [(0 : Int), 1]) 7).cache.length = 1
  ∧ ∃ e, ("a", e) ∈ ([("a", ⟨0, 0, 0⟩), ("b", ⟨0, 0, 5⟩)] : List (String × CacheEntry Nat))
      ∧ ∀ kv ∈ ([("a", ⟨0, 0, 0⟩), ("b", ⟨0, 0, 5⟩)] : List (String × CacheEntry Nat)),
          evictScore 10 e ≤ evictScore 10 kv.2 := by
  constructor
  · exact cache_capacity_and_eviction.1 Nat 1 ["a", "b"] [0, 1] 7 (by omega)
      (by decide) (by decide) (by decide)
  · exact cache_capacity_and_eviction.2 Nat 10 _ "a" (by decide)

/-- C10: `has` ignores the `enabled` toggle and never mutates the cache.
For a cache holding an entry under key `k`: after disabling, `get k` reports
absent while `has k` still reports true; `has` leaves the state — and hence
every hit counter — unchanged; and toggling `enabled` never changes what
`has` answers. -/
theorem cache_has_ignores_enabled (α : Type) (c : AnalysisCache α) (k : String)
    (e : CacheEntry α) (hmem : mapFind k c.cache = some e) :
    ((c.setEnabled false).get k).1 = Option.none
  ∧ ((c.setEnabled false).has k).1 = true
  ∧ ((c.setEnabled false).has k).2 = c.setEnabled false
  ∧ (∀ b : Bool, ((c.setEnabled b).has k).1 = (c.has k).1) := by
  refine ⟨rfl, ?_, rfl, fun b => rfl⟩
  unfold AnalysisCache.has AnalysisCache.setEnabled
  simp [hmem]

/-- C10 witness: a one-entry cache under key `k`, disabled — `get` misses,
`has` still answers true and changes nothing. -/
theorem cache_has_ignores_enabled_witness :
    (((AnalysisCache.mk [("k", ⟨7, 0, 0⟩)] true 10 : AnalysisCache Nat).setEnabled false).get
        "k").1 = Option.none
  ∧ (((AnalysisCache.mk [("k", ⟨7, 0, 0⟩)] true 10 : AnalysisCache Nat).setEnabled false).has
        "k").1 = true
  ∧ (((AnalysisCache.mk [("k", ⟨7, 0, 0⟩)] true 10 : AnalysisCache Nat).setEnabled false).has
        "k").2 = (AnalysisCache.mk [("k", ⟨7, 0, 0⟩)] true 10 : AnalysisCache Nat).setEnabled false
  ∧ (∀ b : Bool,
      (((AnalysisCache.mk [("k", ⟨7, 0, 0⟩)] true 10 : AnalysisCache Nat).setEnabled b).has
          "k").1 =
        ((AnalysisCache.mk [("k", ⟨7, 0, 0⟩)] true 10 : AnalysisCache Nat).has "k").1) :=
  cache_has_ignores_enabled Nat ⟨[("k", ⟨7, 0, 0⟩)], true, 10⟩ "k" ⟨7, 0, 0⟩ (by decide)

end CopyPasta
